import Mathlib

/-!
Verification of the AtlasWriter coordinate-mapping engine
(`atlas_writer-5.py`). The definitions below are a shallow embedding of
the program: segment ids are the 1-based integers assigned at load time,
sequences are lists of characters, and the selection / truncation /
poly-A parsing functions are modelled after lexing (the claims are about
the coordinate arithmetic and validation, not string tokenisation).
Fallible operations return `Except String`, mirroring the program's
`sys.exit` diagnostics.
-/

/-- A parsed locus segment: accession string, 1-based inclusive reference
coordinates, and raw content. Content length is whatever was parsed; it is
not forced to equal the reference span. -/
structure Segment where
  accession : String
  refStart : Int
  refEnd : Int
  content : List Char
deriving DecidableEq

instance : Inhabited Segment := ⟨⟨"", 0, 0, []⟩⟩

/-- The catalog in id order: the segment with id `i` (1-based) is entry
`i - 1`. Models `self.segment_data`. -/
abbrev Catalog := List Segment

/-- Lookup of `self.segment_data[i]` for a 1-based id. -/
def segData (cat : Catalog) (i : Int) : Segment :=
  cat.getD (i - 1).toNat default

/-- Length of a segment's content, `len(self.segment_data[i]['sequence'])`. -/
def segLen (cat : Catalog) (i : Int) : Nat :=
  (segData cat i).content.length

/-- Sum of content lengths over a list of ids. -/
def sumLen (cat : Catalog) (l : List Int) : Nat :=
  (l.map (segLen cat)).sum

/-- `sum(len(self.segment_data[i]['sequence']) for i in selected_indices if i < seg)`:
the linear length contributed by selected segments with id strictly below `seg`. -/
def prefixLength (cat : Catalog) (sel : List Int) (seg : Int) : Nat :=
  sumLen cat (sel.filter (fun i => decide (i < seg)))

/-- Inclusive-start local-to-linear translation: `prefix + (pos - 1)`
(`parse_truncation`, range lower bound). -/
def localToLinearStart (cat : Catalog) (sel : List Int) (seg : Int) (pos : Int) : Int :=
  (prefixLength cat sel seg : Int) + pos - 1

/-- Inclusive-end local-to-linear translation: `prefix + pos`
(`parse_truncation`, range upper bound and single-cut position). -/
def localToLinearEnd (cat : Catalog) (sel : List Int) (seg : Int) (pos : Int) : Int :=
  (prefixLength cat sel seg : Int) + pos

/-- One token of a selection expression: a bare id `N` or a range `A-B`. -/
inductive SelToken where
  | single (n : Int)
  | srange (a b : Int)
deriving DecidableEq

/-- The inclusive integer interval `[a, b]` as a list (`range(a, b + 1)`). -/
def intRangeAux (a : Int) : Nat → List Int
  | 0 => []
  | n + 1 => a :: intRangeAux (a + 1) n

/-- The inclusive integer interval `[a, b]` as a list. -/
def intRange (a b : Int) : List Int :=
  intRangeAux a (b - a + 1).toNat

/-- The ids a token references. -/
def tokenIds : SelToken → List Int
  | .single n => [n]
  | .srange a b => intRange a b

/-- The collection loop of `parse_segment_selection`: validate each token
against the catalog size and gather every referenced id, aborting on the
first invalid token. -/
def collectIds (size : Int) : List SelToken → Except String (List Int)
  | [] => .ok []
  | .single n :: rest =>
      if n < 1 ∨ size < n then .error "Error: Invalid segment index"
      else (collectIds size rest).map (fun r => n :: r)
  | .srange a b :: rest =>
      if a < 1 ∨ size < b ∨ b < a then .error "Error: Invalid range format"
      else (collectIds size rest).map (fun r => intRange a b ++ r)

/-- `parse_segment_selection`: validate all tokens, then
`sorted(set(selected_indices))`. -/
def parse_segment_selection (cat : Catalog) (tokens : List SelToken) : Except String (List Int) :=
  (collectIds (cat.length : Int) tokens).map (fun ids => (ids.dedup).insertionSort (· ≤ ·))

/-- One truncation specification, post-lexing: a range
`segA:posA-segB:posB`, a single cut `seg:pos/[N]` (with `N` present only if
the suffix was a digit string, hence a natural number), or the deprecated
bare `seg:pos`. -/
inductive TruncSpec where
  | trange (segA posA segB posB : Int)
  | cut (seg pos : Int) (polyA : Option Nat)
  | bare (seg pos : Int)
deriving DecidableEq

/-- `parse_truncation`: resolve a truncation specification to
`(global_start, global_end, poly_a_count)` after checking that every named
segment id is selected. -/
def parse_truncation (cat : Catalog) (spec : TruncSpec) (sel : List Int) :
    Except String (Option Int × Option Int × Option Int) :=
  match spec with
  | .trange segA posA segB posB =>
      if segA ∉ sel ∨ segB ∉ sel then
        .error "Error: Truncation segments must be included in the selected segments"
      else
        .ok (some (localToLinearStart cat sel segA posA),
             some (localToLinearEnd cat sel segB posB), none)
  | .cut seg pos polyA =>
      if seg ∉ sel then
        .error "Error: Truncation segment must be included in the selected segments"
      else
        .ok (none, some (localToLinearEnd cat sel seg pos), polyA.map (fun n => (n : Int)))
  | .bare seg pos =>
      if seg ∉ sel then
        .error "Error: Truncation segment must be included in the selected segments"
      else
        .ok (none, some (localToLinearEnd cat sel seg pos), none)

/-- One poly-A specification, post-lexing: segment-relative `seg:pos/count`
or global `pos/count`. -/
inductive PolySpec where
  | segrel (segment position count : Int)
  | global (pos count : Int)
deriving DecidableEq

/-- The accumulation loop of `parse_poly_a`: walk the selected ids, adding
each content length while the id is below `segment` and stopping with
`position` added once `segment` itself is reached. -/
def polyPosGo (cat : Catalog) (segment position : Int) : List Int → Int → Int
  | [], acc => acc
  | idx :: rest, acc =>
      if idx < segment then polyPosGo cat segment position rest (acc + (segLen cat idx : Int))
      else if idx = segment then acc + position
      else polyPosGo cat segment position rest acc

/-- `parse_poly_a`: resolve a poly-A specification to
`(global_position, count)`. The segment-relative form checks that the
segment is selected and that the local position does not exceed that
segment's content length; the global form is passed through unchecked. -/
def parse_poly_a (cat : Catalog) (spec : PolySpec) (sel : List Int) :
    Except String (Int × Int) :=
  match spec with
  | .segrel segment position count =>
      if segment ∉ sel then
        .error "Error: PolyA segment must be included in the selected segments"
      else if (segLen cat segment : Int) < position then
        .error "Error: Position is beyond the length of segment"
      else
        .ok (polyPosGo cat segment position sel 0, count)
  | .global pos count => .ok (pos, count)

/-- Concatenation of the selected segments' contents, in list order. -/
def concatSeq (cat : Catalog) (indices : List Int) : List Char :=
  (indices.map (fun i => (segData cat i).content)).flatten

/-- Python's `s[:k]`: for a nonnegative bound the first `k` characters,
for a negative bound everything but the last `-k` characters (clamped). -/
def pySliceTo (s : List Char) (k : Int) : List Char :=
  if 0 ≤ k then s.take k.toNat else s.take ((s.length : Int) + k).toNat

/-- The tail-append computation `truncated_sequence[:poly_a_pos] + 'A' * poly_a_count`. -/
def tailAppend (s : List Char) (cut count : Int) : List Char :=
  pySliceTo s cut ++ List.replicate count.toNat 'A'

/-- The loop locating the segment that owns a linear start offset: first
selected id with `cumulative + segLen > g`, returned with the cumulative
length before it; `none` with the total length if the loop falls through. -/
def findOwnerGT (cat : Catalog) (g : Int) : List Int → Int → Option Int × Int
  | [], cum => (none, cum)
  | idx :: rest, cum =>
      if g < cum + (segLen cat idx : Int) then (some idx, cum)
      else findOwnerGT cat g rest (cum + (segLen cat idx : Int))

/-- The loop locating the segment that owns a linear end offset: first
selected id with `cumulative + segLen >= g`. -/
def findOwnerGE (cat : Catalog) (g : Int) : List Int → Int → Option Int × Int
  | [], cum => (none, cum)
  | idx :: rest, cum =>
      if g ≤ cum + (segLen cat idx : Int) then (some idx, cum)
      else findOwnerGE cat g rest (cum + (segLen cat idx : Int))

/-- Linear-to-reference translation for a start offset
(`combine_segments`, header start recomputation): reference start of the
owning segment plus the offset within it. On fall-through the program
keeps `segment_idx = 0`, so the first selected segment is used. -/
def linearToRefStart (cat : Catalog) (indices : List Int) (g : Int) : Int :=
  match findOwnerGT cat g indices 0 with
  | (some idx, cum) => (segData cat idx).refStart + (g - cum)
  | (none, cum) => (segData cat (indices.headD 0)).refStart + (g - cum)

/-- Linear-to-reference translation for an (exclusive) end offset
(`combine_segments`, header end recomputation). -/
def linearToRefEnd (cat : Catalog) (indices : List Int) (g : Int) : Int :=
  match findOwnerGE cat g indices 0 with
  | (some idx, cum) => (segData cat idx).refStart + (g - cum) - 1
  | (none, cum) => (segData cat (indices.headD 0)).refStart + (g - cum) - 1

/-- The characters before the first `'.'` of a list. -/
def takeUntilDot : List Char → List Char
  | [] => []
  | c :: r => if c = '.' then [] else c :: takeUntilDot r

/-- `accession.split('.')[0]`: the accession up to its first dot. -/
def accBaseOf (s : String) : String :=
  String.mk (takeUntilDot s.toList)

/-- The observable output of `combine_segments`: the header fields (base
accession, computed reference range, annotations) and the final sequence. -/
structure CombineOut where
  accBase : String
  startPos : Int
  endPos : Int
  truncated : Bool
  tailCount : Option Int
  seq : List Char
deriving DecidableEq

/-- The truncation block of `combine_segments`: when either bound is set,
default the other (start to 0, end to the full length), require
`0 <= start < end <= len`, and slice. -/
def truncStep (combined : List Char) (gs ge : Option Int) : Except String (List Char) :=
  if gs.isSome || ge.isSome then
    let s := gs.getD 0
    let e := ge.getD (combined.length : Int)
    if s < 0 ∨ (combined.length : Int) < e ∨ e ≤ s then
      .error "Error: Invalid truncation range"
    else
      .ok ((combined.take e.toNat).drop s.toNat)
  else
    .ok combined

/-- The poly-A block of `combine_segments`: when both position and count
are given, require the position not to exceed the current length, then keep
the prefix up to the cut and append the tail. -/
def tailStep (truncSeq : List Char) (pap pac : Option Int) :
    Except String (List Char × Option Int) :=
  match pap, pac with
  | some p, some c =>
      if (truncSeq.length : Int) < p then
        .error "Error: PolyA position is beyond the length of the combined sequence"
      else
        .ok (tailAppend truncSeq p c, some c)
  | _, _ => .ok (truncSeq, none)

/-- `combine_segments`: concatenate the selected segments, apply the
optional truncation window, recompute the header reference range for any
bound that was set, then apply the optional tail-append. -/
def combine_segments (cat : Catalog) (indices : List Int)
    (gs ge pap pac : Option Int) : Except String CombineOut :=
  if indices = [] then .error "Error: No segments selected"
  else
    match truncStep (concatSeq cat indices) gs ge with
    | .error m => .error m
    | .ok truncSeq =>
      match tailStep truncSeq pap pac with
      | .error m => .error m
      | .ok (finalSeq, tailC) =>
        .ok { accBase := accBaseOf (segData cat (indices.headD 0)).accession
            , startPos :=
                match gs with
                | some g => linearToRefStart cat indices g
                | none => (segData cat (indices.headD 0)).refStart
            , endPos :=
                match ge with
                | some g => linearToRefEnd cat indices g
                | none => (segData cat (indices.getLastD 0)).refEnd
            , truncated := gs.isSome || ge.isSome
            , tailCount := tailC
            , seq := finalSeq }

/-- The reference-range part of the output header,
`accession.split('.')[0] + ".1:" + start + "-" + end`. -/
def renderRefRange (o : CombineOut) : String :=
  o.accBase ++ ".1:" ++ toString o.startPos ++ "-" ++ toString o.endPos

/-- The two-segment catalog of the worked scenarios: id 1 covers `ACC:1-100`
with 100 bases, id 2 covers `ACC:101-300` with 200 bases. -/
def cat1 : Catalog :=
  [⟨"ACC", 1, 100, List.replicate 100 'C'⟩,
   ⟨"ACC", 101, 300, List.replicate 200 'G'⟩]

set_option maxRecDepth 20000

/-- C1: with catalog `cat1`, selection `1,2` concatenates to length 300;
truncation `1:50-2:20` resolves to `keepStart = 49` and
`keepEndExclusive = 120`; the kept slice has length 71; and the output
header's reference range is `ACC.1:50-120`. -/
theorem C1_scenario :
    parse_segment_selection cat1 [.single 1, .single 2] = .ok [1, 2]
    ∧ (concatSeq cat1 [1, 2]).length = 300
    ∧ parse_truncation cat1 (.trange 1 50 2 20) [1, 2] = .ok (some 49, some 120, none)
    ∧ (combine_segments cat1 [1, 2] (some 49) (some 120) none none).map
        (fun o => (o.seq.length, renderRefRange o)) = .ok (71, "ACC.1:50-120") := by
  refine ⟨by rfl, by rfl, by rfl, by rfl⟩

/-- C4: for any sequence, any cut offset within `[0, length]` and any
nonnegative tail length, the tail-append step yields a sequence of length
`cutOffset + tailLength` whose first `cutOffset` characters are the
original ones and whose remainder is all `'A'`: the tail replaces
everything after the cut. -/
theorem C4_tail_append (s : List Char) (cut count : Int)
    (h1 : 0 ≤ cut) (h2 : cut ≤ (s.length : Int)) (h3 : 0 ≤ count) :
    ((tailAppend s cut count).length : Int) = cut + count
    ∧ (tailAppend s cut count).take cut.toNat = s.take cut.toNat
    ∧ (tailAppend s cut count).drop cut.toNat = List.replicate count.toNat 'A' := by
  have hks : pySliceTo s cut = s.take cut.toNat := by
    unfold pySliceTo
    rw [if_pos h1]
  have hlen : (s.take cut.toNat).length = cut.toNat := by
    rw [List.length_take]
    omega
  refine ⟨?_, ?_, ?_⟩
  · simp only [tailAppend, hks, List.length_append, hlen, List.length_replicate]
    omega
  · rw [tailAppend, hks, List.take_append_eq_append_take, hlen, Nat.sub_self,
      List.take_zero, List.take_take, Nat.min_self, List.append_nil]
  · rw [tailAppend, hks, List.drop_append_eq_append_drop, hlen, Nat.sub_self,
      List.drop_zero, List.drop_eq_nil_of_le (le_of_eq hlen), List.nil_append]

/-- C4 witness: the tail-append step at the concrete sequence `XYZ`,
cut offset 2 and tail length 3. -/
theorem C4_tail_append_witness :
    ((tailAppend ['X', 'Y', 'Z'] 2 3).length : Int) = 2 + 3
    ∧ (tailAppend ['X', 'Y', 'Z'] 2 3).take (2 : Int).toNat
        = (['X', 'Y', 'Z'] : List Char).take (2 : Int).toNat
    ∧ (tailAppend ['X', 'Y', 'Z'] 2 3).drop (2 : Int).toNat
        = List.replicate (3 : Int).toNat 'A' :=
  C4_tail_append ['X', 'Y', 'Z'] 2 3 (by decide) (by decide) (by decide)

/-- C3 counterexample: the tail directive `0/0` (cut offset 0, tail length
0) applied to the non-empty combined sequence of segment 1 of `cat1`
succeeds but returns the empty sequence, not the original one. -/
theorem C3_counterexample :
    (combine_segments cat1 [1] none none (some 0) (some 0)).map (fun o => o.seq)
      = .ok []
    ∧ concatSeq cat1 [1] ≠ [] := by
  exact ⟨by rfl, by decide⟩

/-- C3 amended: the tail directive `0/0` on any non-empty selection is not
an error, and it leaves the header reference range untouched and adds only
the tail annotation; but the resulting sequence is the empty sequence (the
tail replaces everything after offset 0), not the original sequence. -/
theorem C3_amended (cat : Catalog) (indices : List Int) (h : indices ≠ []) :
    (combine_segments cat indices none none (some 0) (some 0)).map
      (fun o => (o.seq, o.truncated, o.tailCount, o.startPos, o.endPos))
    = .ok ([], false, some 0,
        (segData cat (indices.headD 0)).refStart,
        (segData cat (indices.getLastD 0)).refEnd) := by
  unfold combine_segments
  rw [if_neg h]
  have hnn : ¬ ((concatSeq cat indices).length : Int) < 0 :=
    not_lt.mpr (Int.natCast_nonneg _)
  simp [truncStep, tailStep, tailAppend, pySliceTo, hnn, Except.map]

/-- C3 witness: the amended statement at `cat1` with selection `[1]`. -/
theorem C3_amended_witness :
    (combine_segments cat1 [1] none none (some 0) (some 0)).map
      (fun o => (o.seq, o.truncated, o.tailCount, o.startPos, o.endPos))
    = .ok ([], false, some 0,
        (segData cat1 ([1].headD 0)).refStart,
        (segData cat1 ([1].getLastD 0)).refEnd) :=
  C3_amended cat1 [1] (by decide)

/-- C5 counterexample: the negative cut offset `-1` (outside the claimed
required range `0 ≤ cutOffset`) is not rejected: on the 100-base combined
sequence of segment 1 of `cat1`, with tail length 2 it succeeds and
produces 99 kept characters plus the tail. -/
theorem C5_counterexample :
    (combine_segments cat1 [1] none none (some (-1)) (some 2)).map
      (fun o => o.seq.length) = .ok 101 := by
  rfl

/-- C5 amended: the tail-append step fails exactly when the cut offset
exceeds the current sequence length; a cut offset less than or equal to
the length — including every negative one, which Python slicing counts
from the end — is accepted. -/
theorem C5_amended (cat : Catalog) (indices : List Int) (p c : Int)
    (h : indices ≠ []) :
    (p ≤ ((concatSeq cat indices).length : Int) →
      (combine_segments cat indices none none (some p) (some c)).map
          (fun o => (o.seq, o.tailCount))
        = .ok (tailAppend (concatSeq cat indices) p c, some c))
    ∧ (((concatSeq cat indices).length : Int) < p →
      combine_segments cat indices none none (some p) (some c)
        = .error "Error: PolyA position is beyond the length of the combined sequence") := by
  constructor
  · intro hp
    unfold combine_segments
    rw [if_neg h]
    simp [truncStep, tailStep, not_lt.mpr hp, Except.map]
  · intro hp
    unfold combine_segments
    rw [if_neg h]
    simp [truncStep, tailStep, hp, Except.map]

/-- C5 witness: the amended statement at `cat1`, selection `[1]`, with the
accepted negative cut offset `-1` and the rejected offset 101. -/
theorem C5_amended_witness :
    (combine_segments cat1 [1] none none (some (-1)) (some 2)).map
        (fun o => (o.seq, o.tailCount))
      = .ok (tailAppend (concatSeq cat1 [1]) (-1) 2, some 2)
    ∧ combine_segments cat1 [1] none none (some 101) (some 2)
      = .error "Error: PolyA position is beyond the length of the combined sequence" :=
  ⟨(C5_amended cat1 [1] (-1) 2 (by decide)).1 (by decide),
   (C5_amended cat1 [1] 101 2 (by decide)).2 (by decide)⟩

/-- C8: every truncation form (range, single-cut, deprecated bare) and the
segment-relative poly-A directive reject any specification naming a
segment id outside the selection. -/
theorem C8_unselected_segment_rejected (cat : Catalog) (sel : List Int) :
    (∀ segA posA segB posB : Int, segA ∉ sel ∨ segB ∉ sel →
      ∃ m, parse_truncation cat (.trange segA posA segB posB) sel = .error m)
    ∧ (∀ seg pos : Int, ∀ pa : Option Nat, seg ∉ sel →
      ∃ m, parse_truncation cat (.cut seg pos pa) sel = .error m)
    ∧ (∀ seg pos : Int, seg ∉ sel →
      ∃ m, parse_truncation cat (.bare seg pos) sel = .error m)
    ∧ (∀ seg pos cnt : Int, seg ∉ sel →
      ∃ m, parse_poly_a cat (.segrel seg pos cnt) sel = .error m) := by
  refine ⟨?_, ?_, ?_, ?_⟩
  · intro segA posA segB posB hmem
    exact ⟨_, by simp only [parse_truncation]; rw [if_pos hmem]⟩
  · intro seg pos pa hmem
    exact ⟨_, by simp only [parse_truncation]; rw [if_pos hmem]⟩
  · intro seg pos hmem
    exact ⟨_, by simp only [parse_truncation]; rw [if_pos hmem]⟩
  · intro seg pos cnt hmem
    exact ⟨_, by simp only [parse_poly_a]; rw [if_pos hmem]⟩

/-- C8 witness: all four forms rejecting the unselected id 3 against the
selection `[1, 2]`. -/
theorem C8_unselected_segment_rejected_witness :
    (∃ m, parse_truncation cat1 (.trange 3 1 1 1) [1, 2] = .error m)
    ∧ (∃ m, parse_truncation cat1 (.cut 3 1 none) [1, 2] = .error m)
    ∧ (∃ m, parse_truncation cat1 (.bare 3 1) [1, 2] = .error m)
    ∧ (∃ m, parse_poly_a cat1 (.segrel 3 1 5) [1, 2] = .error m) :=
  ⟨(C8_unselected_segment_rejected cat1 [1, 2]).1 3 1 1 1 (Or.inl (by decide)),
   (C8_unselected_segment_rejected cat1 [1, 2]).2.1 3 1 none (by decide),
   (C8_unselected_segment_rejected cat1 [1, 2]).2.2.1 3 1 (by decide),
   (C8_unselected_segment_rejected cat1 [1, 2]).2.2.2 3 1 5 (by decide)⟩

/-- C9: the range truncation form never validates the local positions
against their segments' content lengths: whenever both named segments are
selected and the two computed linear offsets satisfy the global bounds,
parsing and the truncation step both succeed, even with a start position
strictly beyond its segment's content length. -/
theorem C9_range_positions_unvalidated (cat : Catalog) (sel : List Int)
    (segA posA segB posB : Int)
    (hA : segA ∈ sel) (hB : segB ∈ sel)
    (hover : (segLen cat segA : Int) < posA)
    (h0 : 0 ≤ localToLinearStart cat sel segA posA)
    (hlt : localToLinearStart cat sel segA posA < localToLinearEnd cat sel segB posB)
    (hle : localToLinearEnd cat sel segB posB ≤ ((concatSeq cat sel).length : Int))
    (hne : sel ≠ []) :
    parse_truncation cat (.trange segA posA segB posB) sel
      = .ok (some (localToLinearStart cat sel segA posA),
          some (localToLinearEnd cat sel segB posB), none)
    ∧ ∃ out,
        combine_segments cat sel (some (localToLinearStart cat sel segA posA))
          (some (localToLinearEnd cat sel segB posB)) none none = .ok out := by
  constructor
  · simp only [parse_truncation]
    rw [if_neg (by push_neg; exact ⟨hA, hB⟩)]
  · unfold combine_segments
    rw [if_neg hne]
    have ht : truncStep (concatSeq cat sel)
        (some (localToLinearStart cat sel segA posA))
        (some (localToLinearEnd cat sel segB posB))
      = .ok (((concatSeq cat sel).take
            (localToLinearEnd cat sel segB posB).toNat).drop
          (localToLinearStart cat sel segA posA).toNat) := by
      unfold truncStep
      simp only [Option.isSome_some, Bool.or_self, if_true, Option.getD_some]
      rw [if_neg (by push_neg; exact ⟨h0, hle, hlt⟩)]
    rw [ht]
    exact ⟨_, rfl⟩

/-- C9 witness: with `cat1` and selection `[1, 2]`, the range `1:150-2:100`
names position 150 of segment 1 (content length 100) yet succeeds, because
the computed offsets 149 and 200 lie inside the 300-base combined
sequence. -/
theorem C9_range_positions_unvalidated_witness :
    parse_truncation cat1 (.trange 1 150 2 100) [1, 2]
      = .ok (some (localToLinearStart cat1 [1, 2] 1 150),
          some (localToLinearEnd cat1 [1, 2] 2 100), none)
    ∧ ∃ out,
        combine_segments cat1 [1, 2] (some (localToLinearStart cat1 [1, 2] 1 150))
          (some (localToLinearEnd cat1 [1, 2] 2 100)) none none = .ok out :=
  C9_range_positions_unvalidated cat1 [1, 2] 1 150 2 100 (by decide) (by decide)
    (by decide) (by decide) (by decide) (by decide) (by decide)

/-- C10: the segment-relative poly-A directive `seg:pos/N` rejects any
local position strictly beyond its segment's content length, even when the
linear cut offset it would denote lies within the combined sequence. -/
theorem C10_segrel_tail_position_checked (cat : Catalog) (sel : List Int)
    (seg pos cnt : Int) (hmem : seg ∈ sel)
    (hover : (segLen cat seg : Int) < pos)
    (hin : polyPosGo cat seg pos sel 0 ≤ ((concatSeq cat sel).length : Int)) :
    parse_poly_a cat (.segrel seg pos cnt) sel
      = .error "Error: Position is beyond the length of segment" := by
  simp only [parse_poly_a]
  rw [if_neg (not_not_intro hmem), if_pos hover]

/-- C10 witness: position 150 of segment 1 (content length 100) in `cat1`
is rejected although the linear offset 150 lies inside the 300-base
combined sequence of selection `[1, 2]`. -/
theorem C10_segrel_tail_position_checked_witness :
    parse_poly_a cat1 (.segrel 1 150 30) [1, 2]
      = .error "Error: Position is beyond the length of segment" :=
  C10_segrel_tail_position_checked cat1 [1, 2] 1 150 30 (by decide) (by decide)
    (by decide)

/-- C6: with an unset start defaulting to 0 and an unset end defaulting to
the concatenated length, the truncation step fails exactly when the
resolved bounds violate `0 ≤ keepStart < keepEndExclusive ≤ totalLength`,
and otherwise yields the slice `[keepStart, keepEndExclusive)`. -/
theorem C6_truncation_bounds (cat : Catalog) (indices : List Int) (gs ge : Option Int)
    (h : indices ≠ []) (hset : gs ≠ none ∨ ge ≠ none) :
    (0 ≤ gs.getD 0
        ∧ gs.getD 0 < ge.getD ((concatSeq cat indices).length : Int)
        ∧ ge.getD ((concatSeq cat indices).length : Int) ≤ ((concatSeq cat indices).length : Int) →
      (combine_segments cat indices gs ge none none).map (fun o => o.seq)
        = .ok (((concatSeq cat indices).take
              (ge.getD ((concatSeq cat indices).length : Int)).toNat).drop
            (gs.getD 0).toNat))
    ∧ (¬ (0 ≤ gs.getD 0
        ∧ gs.getD 0 < ge.getD ((concatSeq cat indices).length : Int)
        ∧ ge.getD ((concatSeq cat indices).length : Int) ≤ ((concatSeq cat indices).length : Int)) →
      combine_segments cat indices gs ge none none
        = .error "Error: Invalid truncation range") := by
  have hb : (gs.isSome || ge.isSome) = true := by
    rcases hset with h1 | h1 <;> simp [Option.isSome_iff_ne_none, h1]
  constructor
  · intro hok
    unfold combine_segments
    rw [if_neg h]
    unfold truncStep
    rw [hb]
    simp only [if_true]
    rw [if_neg (by push_neg; exact ⟨hok.1, hok.2.2, hok.2.1⟩)]
    simp [tailStep, Except.map]
  · intro hbad
    unfold combine_segments
    rw [if_neg h]
    unfold truncStep
    rw [hb]
    simp only [if_true]
    rw [if_pos (by omega)]

/-- C6 witness: the truncation step at `cat1` with selection `[1, 2]`,
once with the valid bounds `[49, 120)` and once with the inverted bounds
`[120, 49)`. -/
theorem C6_truncation_bounds_witness :
    (combine_segments cat1 [1, 2] (some 49) (some 120) none none).map (fun o => o.seq)
      = .ok (((concatSeq cat1 [1, 2]).take ((120 : Int)).toNat).drop ((49 : Int)).toNat)
    ∧ combine_segments cat1 [1, 2] (some 120) (some 49) none none
      = .error "Error: Invalid truncation range" := by
  constructor
  · have := (C6_truncation_bounds cat1 [1, 2] (some 49) (some 120) (by decide)
      (Or.inl (by decide))).1 (by decide)
    simpa using this
  · have := (C6_truncation_bounds cat1 [1, 2] (some 120) (some 49) (by decide)
      (Or.inl (by decide))).2 (by decide)
    simpa using this

/-- Membership in the auxiliary integer interval list. -/
theorem mem_intRangeAux (x : Int) :
    ∀ (n : Nat) (a : Int), x ∈ intRangeAux a n ↔ a ≤ x ∧ x < a + n
  | 0, a => by
    simp only [intRangeAux, List.not_mem_nil, false_iff, Nat.cast_zero, add_zero]
    omega
  | n + 1, a => by
    simp only [intRangeAux, List.mem_cons, mem_intRangeAux x n (a + 1)]
    push_cast
    omega

/-- Membership in the inclusive integer interval list. -/
theorem mem_intRange (x a b : Int) : x ∈ intRange a b ↔ a ≤ x ∧ x ≤ b := by
  unfold intRange
  rw [mem_intRangeAux]
  omega

/-- When every token is well formed and every referenced id is within
bounds, the collection loop returns all referenced ids. -/
theorem collectIds_ok (size : Int) (tokens : List SelToken)
    (hwf : ∀ t ∈ tokens, ∀ a b : Int, t = .srange a b → a ≤ b)
    (hin : ∀ t ∈ tokens, ∀ x ∈ tokenIds t, 1 ≤ x ∧ x ≤ size) :
    collectIds size tokens = .ok (tokens.flatMap tokenIds) := by
  induction tokens with
  | nil => rfl
  | cons t rest ih =>
    have hrest := ih (fun u hu => hwf u (List.mem_cons_of_mem t hu))
      (fun u hu => hin u (List.mem_cons_of_mem t hu))
    cases t with
    | single n =>
      have hn := hin (.single n) (List.mem_cons_self _ _) n (by simp [tokenIds])
      simp only [collectIds]
      rw [if_neg (by omega), hrest]
      simp [tokenIds, Except.map]
    | srange a b =>
      have hab : a ≤ b := hwf (.srange a b) (List.mem_cons_self _ _) a b rfl
      have ha := hin (.srange a b) (List.mem_cons_self _ _) a
        (by simp [tokenIds, mem_intRange]; omega)
      have hbb := hin (.srange a b) (List.mem_cons_self _ _) b
        (by simp [tokenIds, mem_intRange]; omega)
      simp only [collectIds]
      rw [if_neg (by omega), hrest]
      simp [tokenIds, Except.map]

/-- When some referenced id of a well-formed token list is out of bounds,
the collection loop fails. -/
theorem collectIds_error (size : Int) (tokens : List SelToken)
    (hwf : ∀ t ∈ tokens, ∀ a b : Int, t = .srange a b → a ≤ b)
    (hbad : ¬ ∀ t ∈ tokens, ∀ x ∈ tokenIds t, 1 ≤ x ∧ x ≤ size) :
    ∃ m, collectIds size tokens = .error m := by
  induction tokens with
  | nil => exact absurd (by simp) hbad
  | cons t rest ih =>
    cases t with
    | single n =>
      by_cases hc : n < 1 ∨ size < n
      · exact ⟨_, by simp only [collectIds]; rw [if_pos hc]⟩
      · have hrest : ¬ ∀ t ∈ rest, ∀ x ∈ tokenIds t, 1 ≤ x ∧ x ≤ size := by
          intro hall
          exact hbad (by
            intro u hu x hx
            rcases List.mem_cons.mp hu with rfl | hu'
            · simp only [tokenIds, List.mem_singleton] at hx
              omega
            · exact hall u hu' x hx)
        obtain ⟨m, hm⟩ := ih (fun u hu => hwf u (List.mem_cons_of_mem _ hu)) hrest
        exact ⟨m, by simp only [collectIds]; rw [if_neg hc, hm]; rfl⟩
    | srange a b =>
      have hab : a ≤ b := hwf (.srange a b) (List.mem_cons_self _ _) a b rfl
      by_cases hc : a < 1 ∨ size < b ∨ b < a
      · exact ⟨_, by simp only [collectIds]; rw [if_pos hc]⟩
      · have hrest : ¬ ∀ t ∈ rest, ∀ x ∈ tokenIds t, 1 ≤ x ∧ x ≤ size := by
          intro hall
          exact hbad (by
            intro u hu x hx
            rcases List.mem_cons.mp hu with rfl | hu'
            · simp only [tokenIds, mem_intRange] at hx
              omega
            · exact hall u hu' x hx)
        obtain ⟨m, hm⟩ := ih (fun u hu => hwf u (List.mem_cons_of_mem _ hu)) hrest
        exact ⟨m, by simp only [collectIds]; rw [if_neg hc, hm]; rfl⟩

/-- C7: for well-formed selection expressions (ranges `A-B` with
`A ≤ B`), the selection parser returns the deduplicated numerically
ascending list of all referenced ids when every id lies in
`[1, catalogSize]` and fails otherwise; the inverted range `2-1` and the
selection `5` against the 2-segment catalog both fail. -/
theorem C7_selection_parse (cat : Catalog) (tokens : List SelToken)
    (hwf : ∀ t ∈ tokens, ∀ a b : Int, t = .srange a b → a ≤ b) :
    ((∀ t ∈ tokens, ∀ x ∈ tokenIds t, 1 ≤ x ∧ x ≤ (cat.length : Int)) →
      ∃ r, parse_segment_selection cat tokens = .ok r ∧ r.Sorted (· < ·)
        ∧ ∀ x : Int, x ∈ r ↔ ∃ t ∈ tokens, x ∈ tokenIds t)
    ∧ ((¬ ∀ t ∈ tokens, ∀ x ∈ tokenIds t, 1 ≤ x ∧ x ≤ (cat.length : Int)) →
      ∃ m, parse_segment_selection cat tokens = .error m)
    ∧ (∃ m, parse_segment_selection cat1 [.srange 2 1] = .error m)
    ∧ (∃ m, parse_segment_selection cat1 [.single 5] = .error m) := by
  refine ⟨?_, ?_, ⟨_, by rfl⟩, ⟨_, by rfl⟩⟩
  · intro hin
    refine ⟨((tokens.flatMap tokenIds).dedup).insertionSort (· ≤ ·), ?_, ?_, ?_⟩
    · unfold parse_segment_selection
      rw [collectIds_ok _ _ hwf hin]
      rfl
    · refine (List.sorted_insertionSort _ _).lt_of_le ?_
      exact ((List.perm_insertionSort _ _).symm).nodup (List.nodup_dedup _)
    · intro x
      rw [List.mem_insertionSort, List.mem_dedup, List.mem_flatMap]
  · intro hbad
    obtain ⟨m, hm⟩ := collectIds_error _ _ hwf hbad
    exact ⟨m, by unfold parse_segment_selection; rw [hm]; rfl⟩

/-- C7 witness: the selection expression `2,1-2` against the 2-segment
catalog parses to the ascending deduplicated list of its referenced ids. -/
theorem C7_selection_parse_witness :
    ∃ r, parse_segment_selection cat1 [.single 2, .srange 1 2] = .ok r
      ∧ r.Sorted (· < ·)
      ∧ ∀ x : Int, x ∈ r ↔ ∃ t ∈ [SelToken.single 2, SelToken.srange 1 2], x ∈ tokenIds t :=
  (C7_selection_parse cat1 [.single 2, .srange 1 2]
    (by
      intro t ht a b heq
      subst heq
      simp only [List.mem_cons, List.not_mem_nil, or_false] at ht
      rcases ht with h | h
      · exact absurd h (by simp)
      · injection h with h1 h2
        omega)).1
    (by decide)

/-- Sum of content lengths distributes over cons. -/
theorem sumLen_cons (cat : Catalog) (p : Int) (l : List Int) :
    sumLen cat (p :: l) = segLen cat p + sumLen cat l := by
  simp [sumLen]

/-- The start-offset owner walk lands exactly on the segment whose
cumulative slot contains the offset. -/
theorem findOwnerGT_append (cat : Catalog) (g seg : Int) (post : List Int)
    (pre : List Int) :
    ∀ c : Int, c + (sumLen cat pre : Int) ≤ g →
      g < c + (sumLen cat pre : Int) + (segLen cat seg : Int) →
      findOwnerGT cat g (pre ++ seg :: post) c
        = (some seg, c + (sumLen cat pre : Int)) := by
  induction pre with
  | nil =>
    intro c h1 h2
    simp only [sumLen, List.map_nil, List.sum_nil, Nat.cast_zero, add_zero] at h1 h2 ⊢
    simp only [List.nil_append, findOwnerGT]
    rw [if_pos h2]
  | cons p pre ih =>
    intro c h1 h2
    rw [sumLen_cons] at h1 h2
    push_cast at h1 h2
    simp only [List.cons_append, findOwnerGT, List.append_eq]
    rw [if_neg (by omega)]
    rw [ih (c + (segLen cat p : Int)) (by omega) (by omega)]
    rw [sumLen_cons]
    push_cast
    simp only [Prod.mk.injEq, true_and]
    ring

/-- The end-offset owner walk lands exactly on the segment whose
cumulative slot contains the (exclusive) offset. -/
theorem findOwnerGE_append (cat : Catalog) (g seg : Int) (post : List Int)
    (pre : List Int) :
    ∀ c : Int, c + (sumLen cat pre : Int) < g →
      g ≤ c + (sumLen cat pre : Int) + (segLen cat seg : Int) →
      findOwnerGE cat g (pre ++ seg :: post) c
        = (some seg, c + (sumLen cat pre : Int)) := by
  induction pre with
  | nil =>
    intro c h1 h2
    simp only [sumLen, List.map_nil, List.sum_nil, Nat.cast_zero, add_zero] at h1 h2 ⊢
    simp only [List.nil_append, findOwnerGE]
    rw [if_pos h2]
  | cons p pre ih =>
    intro c h1 h2
    rw [sumLen_cons] at h1 h2
    push_cast at h1 h2
    simp only [List.cons_append, findOwnerGE, List.append_eq]
    rw [if_neg (by omega)]
    rw [ih (c + (segLen cat p : Int)) (by omega) (by omega)]
    rw [sumLen_cons]
    push_cast
    simp only [Prod.mk.injEq, true_and]
    ring

/-- In an ascending selection split around `seg`, the prefix length of
`seg` is the total content length of the part before it. -/
theorem prefixLength_split (cat : Catalog) (pre post : List Int) (seg : Int)
    (hpre : ∀ x ∈ pre, x < seg) (hpost : ∀ x ∈ post, seg < x) :
    prefixLength cat (pre ++ seg :: post) seg = sumLen cat pre := by
  unfold prefixLength
  congr 1
  rw [List.filter_append]
  have h1 : pre.filter (fun i => decide (i < seg)) = pre :=
    List.filter_eq_self.mpr (fun a ha => decide_eq_true (hpre a ha))
  have h2 : (seg :: post).filter (fun i => decide (i < seg)) = [] := by
    refine List.filter_eq_nil_iff.mpr ?_
    intro a ha
    rcases List.mem_cons.mp ha with rfl | ha'
    · simp
    · simp only [decide_eq_true_eq]
      exact not_lt.mpr (le_of_lt (hpost a ha'))
  rw [h1, h2, List.append_nil]

/-- C2 amended: in an ascending duplicate-free selection, for every
selected segment with non-empty content, translating its first local base
to a linear offset (inclusive-start convention) and back yields that
segment's `referenceStart`; translating its last local base
(inclusive-end convention) and back yields
`referenceStart + contentLength - 1`, which equals the segment's
`referenceEnd` exactly when the content length matches the reference
span — the parser does not enforce that match. -/
theorem C2_boundary_roundtrip (cat : Catalog) (sel : List Int) (seg : Int)
    (hsorted : sel.Sorted (· < ·)) (hmem : seg ∈ sel)
    (hlen : 0 < segLen cat seg) :
    linearToRefStart cat sel (localToLinearStart cat sel seg 1)
        = (segData cat seg).refStart
    ∧ linearToRefEnd cat sel (localToLinearEnd cat sel seg (segLen cat seg))
        = (segData cat seg).refStart + (segLen cat seg : Int) - 1
    ∧ ((segData cat seg).refEnd = (segData cat seg).refStart + (segLen cat seg : Int) - 1 →
        linearToRefEnd cat sel (localToLinearEnd cat sel seg (segLen cat seg))
          = (segData cat seg).refEnd) := by
  obtain ⟨pre, post, rfl⟩ := List.append_of_mem hmem
  have hsplit := List.pairwise_append.mp hsorted
  have hpre : ∀ x ∈ pre, x < seg := fun x hx =>
    hsplit.2.2 x hx seg (List.mem_cons_self _ _)
  have hpost : ∀ x ∈ post, seg < x := (List.pairwise_cons.mp hsplit.2.1).1
  have hplen := prefixLength_split cat pre post seg hpre hpost
  have hstartOff : localToLinearStart cat (pre ++ seg :: post) seg 1
      = (sumLen cat pre : Int) := by
    unfold localToLinearStart
    rw [hplen]
    ring
  have hendOff : localToLinearEnd cat (pre ++ seg :: post) seg (segLen cat seg)
      = (sumLen cat pre : Int) + (segLen cat seg : Int) := by
    unfold localToLinearEnd
    rw [hplen]
  refine ⟨?_, ?_, ?_⟩
  · unfold linearToRefStart
    rw [hstartOff,
      findOwnerGT_append cat _ seg post pre 0 (by omega) (by omega)]
    simp
  · unfold linearToRefEnd
    rw [hendOff,
      findOwnerGE_append cat _ seg post pre 0 (by omega) (by omega)]
    simp only [zero_add]
    ring
  · intro hmatch
    unfold linearToRefEnd
    rw [hendOff,
      findOwnerGE_append cat _ seg post pre 0 (by omega) (by omega)]
    simp only [zero_add]
    rw [hmatch]
    ring

/-- The one-segment catalog whose content is shorter than its declared
reference span: `ACC:1-100` with only 50 bases of content. -/
def cat2 : Catalog := [⟨"ACC", 1, 100, List.replicate 50 'A'⟩]

/-- C2 counterexample: in `cat2`, translating segment 1's last local base
(its 50th content character) to a linear offset and back yields 50, not
the segment's `referenceEnd` of 100 — the claimed round trip fails when
the content length does not match the reference span, which the loader
does not enforce. -/
theorem C2_counterexample :
    linearToRefEnd cat2 [1] (localToLinearEnd cat2 [1] 1 (segLen cat2 1))
      ≠ (segData cat2 1).refEnd := by
  decide

/-- C2 witness: the amended round trip at `cat1`, selection `[1, 2]`,
segment 2. -/
theorem C2_boundary_roundtrip_witness :
    linearToRefStart cat1 [1, 2] (localToLinearStart cat1 [1, 2] 2 1)
        = (segData cat1 2).refStart
    ∧ linearToRefEnd cat1 [1, 2] (localToLinearEnd cat1 [1, 2] 2 (segLen cat1 2))
        = (segData cat1 2).refStart + (segLen cat1 2 : Int) - 1
    ∧ ((segData cat1 2).refEnd = (segData cat1 2).refStart + (segLen cat1 2 : Int) - 1 →
        linearToRefEnd cat1 [1, 2] (localToLinearEnd cat1 [1, 2] 2 (segLen cat1 2))
          = (segData cat1 2).refEnd) :=
  C2_boundary_roundtrip cat1 [1, 2] 2 (by decide) (by decide) (by decide)
